import Mathlib

/-!
Verification of the Shor 9-qubit QEC demonstration script (Task_1.py).

The script builds Qiskit circuits (encode / logical ops / correction /
full QEC / fault injection), a depolarizing noise model, and statistical
post-processing of measurement counts.  We embed:

* the circuit data model (operation lists, compose, inverse) translated
  from the Qiskit calls in the source;
* a state-vector semantics for the real-Clifford fragment (H, X, Z, CX)
  used by the semantically analysed circuits.  Amplitudes are integers:
  the Hadamard is modelled scaled by the factor sqrt 2, so a run containing
  k Hadamard applications represents (sqrt 2)^k times the physical state.
  Measurement probabilities are quotients of sums of squared amplitudes,
  hence invariant under this global scaling;
* a sparse executable mirror of that semantics (states as lists of
  basis-state/amplitude pairs) with a proven soundness lemma, used to
  evaluate concrete circuit runs efficiently;
* the noise-model construction and the counts post-processing arithmetic
  of run_comparison, with Python floats modelled as rationals.
-/

namespace ShorQEC

set_option maxRecDepth 100000
set_option maxHeartbeats 1000000

/-! ## Circuit data model (shallow embedding of the Qiskit objects used) -/

/-- A circuit operation, one constructor per Qiskit instruction kind the
script appends.  Rotation angles are rationals standing for the Python
float literals.  Qubit and clbit indices are naturals. -/
inductive Op where
  | h (q : ℕ)
  | x (q : ℕ)
  | y (q : ℕ)
  | z (q : ℕ)
  | s (q : ℕ)
  | sdg (q : ℕ)
  | t (q : ℕ)
  | tdg (q : ℕ)
  | rx (theta : ℚ) (q : ℕ)
  | ry (theta : ℚ) (q : ℕ)
  | rz (theta : ℚ) (q : ℕ)
  | cx (c t : ℕ)
  | cz (c t : ℕ)
  | swap (a b : ℕ)
  | barrier
  | measure (q c : ℕ)
deriving DecidableEq

/-- A quantum circuit: declared qubit/clbit counts and the ordered
operation list (QuantumCircuit(numQubits, numClbits)). -/
structure Circuit where
  numQubits : ℕ
  numClbits : ℕ
  ops : List Op
deriving DecidableEq

/-- Inverse of a single operation, as Qiskit's instruction inverse acts on
the gate kinds above (self-inverse Paulis / H / CX / CZ / SWAP, adjoint
pairs s-sdg and t-tdg, negated angles for rotations).  The source only
ever inverts shor_encode(), which contains cx and h gates. -/
def invOp : Op → Op
  | .h q => .h q
  | .x q => .x q
  | .y q => .y q
  | .z q => .z q
  | .s q => .sdg q
  | .sdg q => .s q
  | .t q => .tdg q
  | .tdg q => .t q
  | .rx a q => .rx (-a) q
  | .ry a q => .ry (-a) q
  | .rz a q => .rz (-a) q
  | .cx c t => .cx c t
  | .cz c t => .cz c t
  | .swap a b => .swap a b
  | .barrier => .barrier
  | .measure q c => .measure q c

/-- Circuit inverse: reverse the operation list and invert each operation
(QuantumCircuit.inverse). -/
def inverse (qc : Circuit) : Circuit :=
  { qc with ops := (qc.ops.map invOp).reverse }

/-- Circuit composition qc.compose(other): append the other circuit's
operations (identity qubit mapping, as used in the source). -/
def compose (qc other : Circuit) : Circuit :=
  { qc with ops := qc.ops ++ other.ops }

/-- Append a single operation (the qc.h(0), qc.cx(0,3), ... method calls). -/
def appendOp (qc : Circuit) (op : Op) : Circuit :=
  { qc with ops := qc.ops ++ [op] }

/-! ## The circuits built by the source -/

/-- shor_encode(): the 9-qubit Shor-code encoder. -/
def shor_encode : Circuit :=
  { numQubits := 9, numClbits := 0
    ops := [.cx 0 3, .cx 0 6, .h 0, .h 3, .h 6,
            .cx 0 1, .cx 0 2, .cx 3 4, .cx 3 5, .cx 6 7, .cx 6 8] }

/-- apply_quantum_operations(): the fixed logical-operations fragment. -/
def apply_quantum_operations : Circuit :=
  { numQubits := 9, numClbits := 0
    ops := [.h 0, .rx 0.5 1, .ry 0.3 2, .rz 0.7 3, .s 4, .sdg 5,
            .t 6, .tdg 7, .x 8, .cx 0 4, .cz 1 5, .swap 2 6] }

/-- apply_error_correction(syndrome): the correction fragment.  The
syndrome argument (Python default "000000") is ignored by the body,
exactly as in the source. -/
def apply_error_correction (_syndrome : String) : Circuit :=
  { numQubits := 9, numClbits := 0
    ops := [.barrier, .x 0, .z 0, .x 0, .z 0] }

/-- shor_qec_circuit(): the full QEC circuit, composed in source order
(the correction fragment is invoked at its Python default syndrome). -/
def shor_qec_circuit : Circuit :=
  let qc : Circuit := { numQubits := 9, numClbits := 1, ops := [] }
  let qc := appendOp qc (.h 0)
  let qc := compose qc apply_quantum_operations
  let qc := compose qc shor_encode
  let qc := appendOp qc .barrier
  let qc := compose qc (apply_error_correction "000000")
  let qc := compose qc (inverse shor_encode)
  appendOp qc (.measure 0 0)

/-- The fault-injection circuit of demonstrate_error_correction(), with
the faulted qubit as a parameter (the source hardcodes qubit 4): prepare
logical one with X on qubit 0, encode, inject a bit-flip on qubit q,
decode, measure qubit 0 into clbit 0. -/
def fault_injection_circuit (q : ℕ) : Circuit :=
  let qc : Circuit := { numQubits := 9, numClbits := 1, ops := [] }
  let qc := appendOp qc (.x 0)
  let qc := compose qc shor_encode
  let qc := appendOp qc (.x q)
  let qc := compose qc (inverse shor_encode)
  appendOp qc (.measure 0 0)

/-- The exact circuit demonstrate_error_correction() builds (fault on
qubit 4). -/
def demonstrate_circuit : Circuit := fault_injection_circuit 4

/-- The simplified encode-then-decode round-trip circuit built by
visualize_circuits(). -/
def simple_qec : Circuit :=
  let qc : Circuit := { numQubits := 9, numClbits := 1, ops := [] }
  let qc := appendOp qc (.h 0)
  let qc := compose qc shor_encode
  let qc := appendOp qc .barrier
  let qc := compose qc (inverse shor_encode)
  appendOp qc (.measure 0 0)

/-! ## Noise model (shallow model of the qiskit_aer objects used) -/

/-- depolarizing_error(p, num_qubits): a depolarizing channel with error
probability p acting on num_qubits qubits, applied independently and
identically to every instance of a gate it is attached to. -/
structure QuantumError where
  p : ℚ
  num_qubits : ℕ
deriving DecidableEq

/-- A noise model: the list of (gate name, attached error) associations
accumulated by add_all_qubit_quantum_error calls. -/
abbrev NoiseModel := List (String × QuantumError)

/-- depolarizing_error constructor. -/
def depolarizing_error (p : ℚ) (n : ℕ) : QuantumError := ⟨p, n⟩

/-- noise_model.add_all_qubit_quantum_error(error, gates): attach the
error to every gate kind in the list, on all qubits. -/
def add_all_qubit_quantum_error (nm : NoiseModel) (e : QuantumError)
    (gates : List String) : NoiseModel :=
  nm ++ gates.map fun g => (g, e)

/-- The single-qubit gate kinds the source attaches the p1 error to. -/
def oneQubitGates : List String :=
  ["h", "x", "y", "z", "s", "sdg", "t", "tdg", "rx", "ry", "rz"]

/-- The two-qubit gate kinds the source attaches the p2 error to. -/
def twoQubitGates : List String := ["cx", "cz", "swap"]

/-- build_noise_model(): the source's noise model.  It takes no
parameters; p1 = 0.01 and p2 = 0.03 are fixed local values. -/
def build_noise_model : NoiseModel :=
  let noise_model : NoiseModel := []
  let p1 : ℚ := 0.01
  let p2 : ℚ := 0.03
  let error1 := depolarizing_error p1 1
  let noise_model := add_all_qubit_quantum_error noise_model error1 oneQubitGates
  let error2 := depolarizing_error p2 2
  add_all_qubit_quantum_error noise_model error2 twoQubitGates

/-- Modelled from the spec: the parameterized Noise Model Provider
signature the spec describes, build_noise_model(p1, p2) with defaults
0.01 and 0.03 — the source's build_noise_model takes no parameters, so
this spec-side definition exists only to be compared with it. -/
def build_noise_model_spec (p1 p2 : ℚ) : NoiseModel :=
  let noise_model : NoiseModel := []
  let error1 := depolarizing_error p1 1
  let noise_model := add_all_qubit_quantum_error noise_model error1 oneQubitGates
  let error2 := depolarizing_error p2 2
  add_all_qubit_quantum_error noise_model error2 twoQubitGates

/-- The simulator backend object: AerSimulator, holding the optional
noise model it was constructed with. -/
structure AerSimulator where
  noise_model : Option NoiseModel
deriving DecidableEq

/-- The backend run_comparison constructs:
AerSimulator(noise_model=build_noise_model()). -/
def comparison_backend : AerSimulator := { noise_model := some build_noise_model }

/-- The backend demonstrate_error_correction constructs: AerSimulator()
with no noise model attached. -/
def demonstration_backend : AerSimulator := { noise_model := none }

/-! ## Counts post-processing (run_comparison) -/

/-- counts.get(key, 0): occurrence count of the bitstring key, 0 when the
key is absent.  Measurement-count dictionaries are association lists. -/
def getCount (counts : List (String × ℕ)) (key : String) : ℕ :=
  (counts.lookup key).getD 0

/-- Empirical probability of outcome '0' over the fixed 1000 shots:
counts.get('0', 0) / 1000. -/
def prob_0 (counts : List (String × ℕ)) : ℚ := (getCount counts "0" : ℚ) / 1000

/-- Empirical probability of outcome '1' over the fixed 1000 shots:
counts.get('1', 0) / 1000. -/
def prob_1 (counts : List (String × ℕ)) : ℚ := (getCount counts "1" : ℚ) / 1000

/-- The deviation statistic: abs(0.5 - prob_0) * 200, a percentage of the
maximum possible deviation 0.5. -/
def deviation (counts : List (String × ℕ)) : ℚ :=
  |(0.5 : ℚ) - prob_0 counts| * 200

/-! ## State-vector semantics for the H / X / Z / CX fragment -/

/-- A 9-qubit state: integer amplitude for each of the 512 computational
basis states (bit i of the index is the value of qubit i). -/
abbrev State := Fin 512 → ℤ

/-- Value of qubit q in basis state x. -/
def bitOf (q : Fin 9) (x : Fin 512) : Bool := x.val.testBit q.val

/-- Flip qubit q in basis state x (xor with 2 to the q). -/
def flipBit (q : Fin 9) (x : Fin 512) : Fin 512 :=
  ⟨x.val ^^^ (1 <<< q.val), by
    have hy : (1 <<< q.val) < 512 := by
      rw [Nat.one_shiftLeft]
      have h8 : q.val ≤ 8 := by have := q.isLt; omega
      calc (2 : ℕ) ^ q.val ≤ 2 ^ 8 := Nat.pow_le_pow_right (by norm_num) h8
        _ < 512 := by norm_num
    have hx := x.isLt
    show Nat.bitwise bne x.val (1 <<< q.val) < 512
    have hb : Nat.bitwise bne x.val (1 <<< q.val) < 2 ^ 9 :=
      Nat.bitwise_lt (lt_of_lt_of_le hx (by norm_num)) (lt_of_lt_of_le hy (by norm_num))
    exact lt_of_lt_of_le hb (by norm_num)⟩

/-- Basis-state permutation of the CX gate: flip the target bit when the
control bit is set. -/
def cxMap (c t : Fin 9) (x : Fin 512) : Fin 512 :=
  if bitOf c x then flipBit t x else x

/-- Sign of the Z gate on basis state x. -/
def zSign (q : Fin 9) (x : Fin 512) : ℤ :=
  if bitOf q x then -1 else 1

/-- Pauli-X on qubit q (basis permutation). -/
def applyX (q : Fin 9) (ψ : State) : State := fun x => ψ (flipBit q x)

/-- Pauli-Z on qubit q (diagonal sign). -/
def applyZ (q : Fin 9) (ψ : State) : State := fun x => zSign q x * ψ x

/-- CX with control c and target t (basis permutation). -/
def applyCX (c t : Fin 9) (ψ : State) : State := fun x => ψ (cxMap c t x)

/-- Hadamard on qubit q, scaled by sqrt 2 so amplitudes stay integral:
the basis state with qubit q clear maps to (q clear) + (q set), and the
basis state with qubit q set maps to (q clear) - (q set). -/
def applyH (q : Fin 9) (ψ : State) : State := fun x =>
  if bitOf q x then ψ (flipBit q x) - ψ x else ψ x + ψ (flipBit q x)

/-- Pointwise integer scaling of a state. -/
def scale (a : ℤ) (ψ : State) : State := fun x => a * ψ x

/-- Semantics of one operation on a 9-qubit state.  Operations outside the
integer-amplitude fragment (phase/rotation gates with complex or
irrational matrix entries) and mid-circuit measurements are not
interpreted (none); the circuits analysed semantically never contain
them.  Barriers are operationally inert.  Out-of-range qubit indices are
rejected. -/
def evalOp : Op → State → Option State
  | .h q, ψ => if hq : q < 9 then some (applyH ⟨q, hq⟩ ψ) else none
  | .x q, ψ => if hq : q < 9 then some (applyX ⟨q, hq⟩ ψ) else none
  | .z q, ψ => if hq : q < 9 then some (applyZ ⟨q, hq⟩ ψ) else none
  | .cx c t, ψ =>
      if hct : c < 9 ∧ t < 9 then some (applyCX ⟨c, hct.1⟩ ⟨t, hct.2⟩ ψ)
      else none
  | .barrier, ψ => some ψ
  | _, _ => none

/-- Run a list of operations left to right. -/
def runOps : List Op → State → Option State
  | [], ψ => some ψ
  | op :: rest, ψ =>
      match evalOp op ψ with
      | some φ => runOps rest φ
      | none => none

/-- The simulator's initial state: all nine qubits in the zero state. -/
def initState : State := fun x => if x = 0 then 1 else 0

/-- Sum of squared amplitudes over the basis states with qubit q set (the
unnormalized weight of measurement outcome one on qubit q). -/
def oneCount (q : Fin 9) (ψ : State) : ℤ :=
  ((List.finRange 512).map fun x => if bitOf q x then ψ x ^ 2 else 0).sum

/-- Total sum of squared amplitudes (the squared norm of the state). -/
def normSq (ψ : State) : ℤ :=
  ((List.finRange 512).map fun x => ψ x ^ 2).sum

/-- Probability that measuring qubit q yields outcome one.  Invariant
under nonzero global scaling, so the sqrt-2 convention of applyH does not
affect it. -/
def probOne (q : Fin 9) (ψ : State) : ℚ :=
  (oneCount q ψ : ℚ) / (normSq ψ : ℚ)

/-- The measured qubit of a final operation, when that operation is a
measurement. -/
def lastMeasure : Option Op → Option ℕ
  | some (Op.measure q _) => some q
  | _ => none

/-- Noise-free simulation of a circuit whose final operation is a
measurement: run the preceding operations from the all-zero initial state
and return the probability that the measurement records outcome '1'. -/
def simulate (qc : Circuit) : Option ℚ :=
  match lastMeasure qc.ops.getLast?, runOps qc.ops.dropLast initState with
  | some q, some ψ => if hq : q < 9 then some (probOne ⟨q, hq⟩ ψ) else none
  | _, _ => none

/-! ## Sparse executable mirror of the semantics -/

/-- A state as a formal sum of weighted basis states. -/
abbrev SState := List (Fin 512 × ℤ)

/-- The state a sparse representation denotes. -/
def densify (l : SState) : State :=
  fun x => (l.map fun p => if p.1 = x then p.2 else 0).sum

/-- Sparse Pauli-X. -/
def xS (q : Fin 9) (l : SState) : SState := l.map fun p => (flipBit q p.1, p.2)

/-- Sparse Pauli-Z. -/
def zS (q : Fin 9) (l : SState) : SState :=
  l.map fun p => (p.1, zSign q p.1 * p.2)

/-- Sparse CX. -/
def cxS (c t : Fin 9) (l : SState) : SState :=
  l.map fun p => (cxMap c t p.1, p.2)

/-- Sparse Hadamard (same sqrt-2 scaling as applyH). -/
def hS (q : Fin 9) (l : SState) : SState :=
  l.flatMap fun p =>
    if bitOf q p.1 then [(flipBit q p.1, p.2), (p.1, -p.2)]
    else [(p.1, p.2), (flipBit q p.1, p.2)]

/-- Sparse mirror of evalOp.  The cx case additionally requires distinct
control and target (Qiskit rejects cx(q, q) at construction time); this
makes the mirror sound with respect to evalOp wherever it returns a
value. -/
def evalOpS : Op → SState → Option SState
  | .h q, l => if hq : q < 9 then some (hS ⟨q, hq⟩ l) else none
  | .x q, l => if hq : q < 9 then some (xS ⟨q, hq⟩ l) else none
  | .z q, l => if hq : q < 9 then some (zS ⟨q, hq⟩ l) else none
  | .cx c t, l =>
      if hct : c < 9 ∧ t < 9 ∧ c ≠ t then
        some (cxS ⟨c, hct.1⟩ ⟨t, hct.2.1⟩ l)
      else none
  | .barrier, l => some l
  | _, _ => none

/-- Sparse mirror of runOps. -/
def runOpsS : List Op → SState → Option SState
  | [], l => some l
  | op :: rest, l =>
      match evalOpS op l with
      | some l' => runOpsS rest l'
      | none => none

/-- Sparse representation of the all-zero initial state. -/
def sInit : SState := [(0, 1)]

/-- Add amplitude a at basis state i to a sparse state, combining it with
an existing entry for i when there is one. -/
def addAmp (i : Fin 512) (a : ℤ) : SState → SState
  | [] => [(i, a)]
  | (j, b) :: g => if i = j then (j, b + a) :: g else (j, b) :: addAmp i a g

/-- Combine all duplicate basis states of a sparse state, producing a
representation with pairwise distinct basis states. -/
def gather (l : SState) : SState := l.foldr (fun p g => addAmp p.1 p.2 g) []

/-- Sum of squared amplitudes of a sparse state over entries with qubit q
set (meaningful when the entries have distinct basis states). -/
def weightOne (q : Fin 9) (g : SState) : ℤ :=
  (g.map fun p => if bitOf q p.1 then p.2 ^ 2 else 0).sum

/-- Sum of squared amplitudes of a sparse state (meaningful when the
entries have distinct basis states). -/
def weightAll (g : SState) : ℤ :=
  (g.map fun p => p.2 ^ 2).sum

/-- Run a measurement-free operation list sparsely from the initial state
and report the outcome-one weight on qubit 0 and the squared norm of the
final state. -/
def runCheck (ops : List Op) : Option (ℤ × ℤ) :=
  (runOpsS ops sInit).map fun l => (weightOne 0 (gather l), weightAll (gather l))

/-! ## Basis-index facts -/

theorem flipBit_flipBit (q : Fin 9) (x : Fin 512) :
    flipBit q (flipBit q x) = x := by
  apply Fin.ext
  show (x.val ^^^ (1 <<< q.val)) ^^^ (1 <<< q.val) = x.val
  rw [Nat.xor_assoc, Nat.xor_self, Nat.xor_zero]

theorem bitOf_flipBit_self (q : Fin 9) (x : Fin 512) :
    bitOf q (flipBit q x) = !bitOf q x := by
  unfold bitOf flipBit
  show (x.val ^^^ (1 <<< q.val)).testBit q.val = !x.val.testBit q.val
  rw [Nat.testBit_xor, Nat.one_shiftLeft, Nat.testBit_two_pow_self]
  cases x.val.testBit q.val <;> rfl

theorem bitOf_flipBit_ne (p q : Fin 9) (h : p ≠ q) (x : Fin 512) :
    bitOf p (flipBit q x) = bitOf p x := by
  unfold bitOf flipBit
  show (x.val ^^^ (1 <<< q.val)).testBit p.val = x.val.testBit p.val
  have hqp : q.val ≠ p.val := fun he => h (Fin.ext he.symm)
  rw [Nat.testBit_xor, Nat.one_shiftLeft, Nat.testBit_two_pow_of_ne hqp]
  cases x.val.testBit p.val <;> rfl

theorem cxMap_cxMap (c t : Fin 9) (h : c ≠ t) (x : Fin 512) :
    cxMap c t (cxMap c t x) = x := by
  unfold cxMap
  cases hb : bitOf c x
  · simp [hb]
  · simp [hb, bitOf_flipBit_ne c t h, flipBit_flipBit]

theorem zSign_mul_zSign_flipBit (q : Fin 9) (x : Fin 512) :
    zSign q x * zSign q (flipBit q x) = -1 := by
  unfold zSign
  rw [bitOf_flipBit_self]
  cases hb : bitOf q x <;> simp [hb]

theorem flipBit_eq_iff (q : Fin 9) (i x : Fin 512) :
    flipBit q i = x ↔ i = flipBit q x := by
  constructor
  · rintro rfl
    rw [flipBit_flipBit]
  · rintro rfl
    rw [flipBit_flipBit]

theorem cxMap_eq_iff (c t : Fin 9) (h : c ≠ t) (i x : Fin 512) :
    cxMap c t i = x ↔ i = cxMap c t x := by
  constructor
  · rintro rfl
    rw [cxMap_cxMap c t h]
  · rintro rfl
    rw [cxMap_cxMap c t h]

/-! ## Gate-level algebra -/

theorem applyCX_applyCX (c t : Fin 9) (h : c ≠ t) (ψ : State) :
    applyCX c t (applyCX c t ψ) = ψ :=
  funext fun x => congrArg ψ (cxMap_cxMap c t h x)

theorem cx03_cancel (ψ : State) : applyCX 0 3 (applyCX 0 3 ψ) = ψ :=
  applyCX_applyCX 0 3 (by decide) ψ

theorem cx06_cancel (ψ : State) : applyCX 0 6 (applyCX 0 6 ψ) = ψ :=
  applyCX_applyCX 0 6 (by decide) ψ

theorem cx01_cancel (ψ : State) : applyCX 0 1 (applyCX 0 1 ψ) = ψ :=
  applyCX_applyCX 0 1 (by decide) ψ

theorem cx02_cancel (ψ : State) : applyCX 0 2 (applyCX 0 2 ψ) = ψ :=
  applyCX_applyCX 0 2 (by decide) ψ

theorem cx34_cancel (ψ : State) : applyCX 3 4 (applyCX 3 4 ψ) = ψ :=
  applyCX_applyCX 3 4 (by decide) ψ

theorem cx35_cancel (ψ : State) : applyCX 3 5 (applyCX 3 5 ψ) = ψ :=
  applyCX_applyCX 3 5 (by decide) ψ

theorem cx67_cancel (ψ : State) : applyCX 6 7 (applyCX 6 7 ψ) = ψ :=
  applyCX_applyCX 6 7 (by decide) ψ

theorem cx68_cancel (ψ : State) : applyCX 6 8 (applyCX 6 8 ψ) = ψ :=
  applyCX_applyCX 6 8 (by decide) ψ

theorem applyH_applyH (q : Fin 9) (ψ : State) :
    applyH q (applyH q ψ) = scale 2 ψ := by
  funext x
  simp only [applyH, scale, bitOf_flipBit_self, flipBit_flipBit]
  cases hb : bitOf q x <;> simp [hb] <;> ring

theorem applyCX_scale (c t : Fin 9) (a : ℤ) (ψ : State) :
    applyCX c t (scale a ψ) = scale a (applyCX c t ψ) := rfl

theorem applyH_scale (q : Fin 9) (a : ℤ) (ψ : State) :
    applyH q (scale a ψ) = scale a (applyH q ψ) := by
  funext x
  simp only [applyH, scale]
  cases hb : bitOf q x <;> simp <;> ring

theorem scale_scale (a b : ℤ) (ψ : State) :
    scale a (scale b ψ) = scale (a * b) ψ := by
  funext x
  simp [scale, mul_assoc]

/-! ## Measurement-probability algebra -/

theorem oneCount_scale (a : ℤ) (q : Fin 9) (ψ : State) :
    oneCount q (scale a ψ) = a ^ 2 * oneCount q ψ := by
  have hfun : ∀ x : Fin 512,
      (if bitOf q x then (a * ψ x) ^ 2 else 0) =
        a ^ 2 * (if bitOf q x then ψ x ^ 2 else 0) := by
    intro x
    cases bitOf q x
    · simp
    · simp [mul_pow]
  unfold oneCount scale
  simp only [hfun]
  exact List.sum_map_mul_left _ _ _

theorem normSq_scale (a : ℤ) (ψ : State) :
    normSq (scale a ψ) = a ^ 2 * normSq ψ := by
  unfold normSq scale
  simp only [mul_pow]
  exact List.sum_map_mul_left _ _ _

theorem probOne_scale (a : ℤ) (ha : a ≠ 0) (q : Fin 9) (ψ : State) :
    probOne q (scale a ψ) = probOne q ψ := by
  unfold probOne
  rw [oneCount_scale, normSq_scale]
  push_cast
  rw [mul_div_mul_left]
  exact pow_ne_zero 2 (Int.cast_ne_zero.mpr ha)

theorem probOne_eq_one (q : Fin 9) (ψ : State)
    (h1 : oneCount q ψ = normSq ψ) (h2 : normSq ψ ≠ 0) : probOne q ψ = 1 := by
  unfold probOne
  rw [h1]
  exact div_self (Int.cast_ne_zero.mpr h2)

/-! ## Soundness of the sparse mirror -/

theorem densify_cons (p : Fin 512 × ℤ) (l : SState) (x : Fin 512) :
    densify (p :: l) x = (if p.1 = x then p.2 else 0) + densify l x := by
  simp [densify]

theorem densify_append (l₁ l₂ : SState) (x : Fin 512) :
    densify (l₁ ++ l₂) x = densify l₁ x + densify l₂ x := by
  simp [densify]

theorem densify_xS (q : Fin 9) (l : SState) (x : Fin 512) :
    densify (xS q l) x = applyX q (densify l) x := by
  induction l with
  | nil => rfl
  | cons p l ih =>
    simp only [xS, List.map_cons, densify_cons, applyX, flipBit_eq_iff] at ih ⊢
    rw [ih]

theorem densify_zS (q : Fin 9) (l : SState) (x : Fin 512) :
    densify (zS q l) x = applyZ q (densify l) x := by
  induction l with
  | nil => simp [zS, densify, applyZ]
  | cons p l ih =>
    simp only [zS, List.map_cons, densify_cons, applyZ] at ih ⊢
    rw [ih, mul_add]
    by_cases hp : p.1 = x
    · simp [hp]
    · simp [hp]

theorem densify_cxS (c t : Fin 9) (h : c ≠ t) (l : SState) (x : Fin 512) :
    densify (cxS c t l) x = applyCX c t (densify l) x := by
  induction l with
  | nil => rfl
  | cons p l ih =>
    simp only [cxS, List.map_cons, densify_cons, applyCX, cxMap_eq_iff c t h] at ih ⊢
    rw [ih]

theorem applyH_point_add (q : Fin 9) (ψ φ : State) (x : Fin 512) :
    applyH q (fun y => ψ y + φ y) x = applyH q ψ x + applyH q φ x := by
  simp only [applyH]
  cases hb : bitOf q x
  · simp only [Bool.false_eq_true, if_false]
    ring
  · simp only [if_true]
    ring

theorem densify_hS_single (q : Fin 9) (i : Fin 512) (a : ℤ) (x : Fin 512) :
    densify (if bitOf q i then [(flipBit q i, a), (i, -a)]
             else [(i, a), (flipBit q i, a)]) x =
      applyH q (fun y => if i = y then a else 0) x := by
  have hflip : ∀ y : Fin 512, (flipBit q i = y) = (i = flipBit q y) :=
    fun y => propext (flipBit_eq_iff q i y)
  simp only [applyH]
  cases hbi : bitOf q i <;> cases hbx : bitOf q x
  · -- qubit clear in i and in x
    simp only [Bool.false_eq_true, if_false, densify_cons, hflip]
    simp [densify]
  · -- qubit clear in i, set in x: i cannot equal x
    have hne : i ≠ x := by
      intro he
      rw [he] at hbi
      rw [hbi] at hbx
      exact Bool.noConfusion hbx
    simp only [Bool.false_eq_true, if_false, if_true, densify_cons, hflip]
    simp [hne, densify]
  · -- qubit set in i, clear in x: i cannot equal x
    have hne : i ≠ x := by
      intro he
      rw [he] at hbi
      rw [hbi] at hbx
      exact Bool.noConfusion hbx
    simp only [Bool.false_eq_true, if_false, if_true, densify_cons, hflip]
    simp [hne, densify]
  · -- qubit set in both
    simp only [if_true, densify_cons, hflip]
    have hni : (if i = x then -a else (0 : ℤ)) = -(if i = x then a else 0) := by
      split <;> simp
    simp [densify, hni]
    ring

theorem densify_hS (q : Fin 9) (l : SState) (x : Fin 512) :
    densify (hS q l) x = applyH q (densify l) x := by
  induction l with
  | nil => simp [hS, densify, applyH]
  | cons p l ih =>
    obtain ⟨i, a⟩ := p
    have hsplit : hS q ((i, a) :: l) =
        (if bitOf q i then [(flipBit q i, a), (i, -a)]
         else [(i, a), (flipBit q i, a)]) ++ hS q l := rfl
    rw [hsplit, densify_append, ih]
    rw [show densify ((i, a) :: l) = fun y => ((if i = y then a else 0) + densify l y)
        from funext fun y => densify_cons _ _ _]
    rw [applyH_point_add]
    have hsingle := densify_hS_single q i a x
    rw [hsingle]

theorem evalOpS_sound (op : Op) (l l' : SState) (hop : evalOpS op l = some l') :
    evalOp op (densify l) = some (densify l') := by
  cases op with
  | h q =>
    by_cases hq : q < 9
    · simp only [evalOpS, dif_pos hq] at hop
      injection hop with h'
      subst h'
      simp only [evalOp, dif_pos hq]
      exact congrArg some (funext fun x => (densify_hS ⟨q, hq⟩ l x).symm)
    · simp only [evalOpS, dif_neg hq] at hop
      exact Option.noConfusion hop
  | x q =>
    by_cases hq : q < 9
    · simp only [evalOpS, dif_pos hq] at hop
      injection hop with h'
      subst h'
      simp only [evalOp, dif_pos hq]
      exact congrArg some (funext fun x => (densify_xS ⟨q, hq⟩ l x).symm)
    · simp only [evalOpS, dif_neg hq] at hop
      exact Option.noConfusion hop
  | z q =>
    by_cases hq : q < 9
    · simp only [evalOpS, dif_pos hq] at hop
      injection hop with h'
      subst h'
      simp only [evalOp, dif_pos hq]
      exact congrArg some (funext fun x => (densify_zS ⟨q, hq⟩ l x).symm)
    · simp only [evalOpS, dif_neg hq] at hop
      exact Option.noConfusion hop
  | cx c t =>
    by_cases hct : c < 9 ∧ t < 9 ∧ c ≠ t
    · simp only [evalOpS, dif_pos hct] at hop
      injection hop with h'
      subst h'
      simp only [evalOp, dif_pos (And.intro hct.1 hct.2.1)]
      have hne : (⟨c, hct.1⟩ : Fin 9) ≠ ⟨t, hct.2.1⟩ := Fin.ne_of_val_ne hct.2.2
      exact congrArg some (funext fun x => (densify_cxS _ _ hne l x).symm)
    · simp only [evalOpS, dif_neg hct] at hop
      exact Option.noConfusion hop
  | barrier =>
    simp only [evalOpS] at hop
    injection hop with h'
    subst h'
    rfl
  | y q =>
    simp only [evalOpS] at hop
    exact Option.noConfusion hop
  | s q =>
    simp only [evalOpS] at hop
    exact Option.noConfusion hop
  | sdg q =>
    simp only [evalOpS] at hop
    exact Option.noConfusion hop
  | t q =>
    simp only [evalOpS] at hop
    exact Option.noConfusion hop
  | tdg q =>
    simp only [evalOpS] at hop
    exact Option.noConfusion hop
  | rx a q =>
    simp only [evalOpS] at hop
    exact Option.noConfusion hop
  | ry a q =>
    simp only [evalOpS] at hop
    exact Option.noConfusion hop
  | rz a q =>
    simp only [evalOpS] at hop
    exact Option.noConfusion hop
  | cz c t =>
    simp only [evalOpS] at hop
    exact Option.noConfusion hop
  | swap a b =>
    simp only [evalOpS] at hop
    exact Option.noConfusion hop
  | measure q c =>
    simp only [evalOpS] at hop
    exact Option.noConfusion hop

theorem runOpsS_sound : ∀ (ops : List Op) (l l' : SState),
    runOpsS ops l = some l' → runOps ops (densify l) = some (densify l') := by
  intro ops
  induction ops with
  | nil =>
    intro l l' hl
    injection hl with h'
    subst h'
    rfl
  | cons op rest ih =>
    intro l l' hl
    cases hop : evalOpS op l with
    | none =>
      simp only [runOpsS, hop] at hl
      exact Option.noConfusion hl
    | some l₁ =>
      simp only [runOpsS, hop] at hl
      have ho := evalOpS_sound op l l₁ hop
      simp only [runOps, ho]
      exact ih l₁ l' hl

theorem densify_sInit : densify sInit = initState := by
  funext x
  by_cases hx : x = 0
  · subst hx
    rfl
  · show (if (0 : Fin 512) = x then (1 : ℤ) else 0) + 0 = if x = 0 then 1 else 0
    rw [if_neg (fun he => hx he.symm), if_neg hx]
    simp

/-! ## Reading measurement weights off a gathered sparse state -/

theorem list_sum_map_add {α : Type} (L : List α) (u v : α → ℤ) :
    (L.map fun x => u x + v x).sum = (L.map u).sum + (L.map v).sum := by
  induction L with
  | nil => rfl
  | cons a L ih =>
    simp only [List.map_cons, List.sum_cons, ih]
    ring

theorem list_sum_map_single_zero {α : Type} [DecidableEq α] (L : List α)
    (i : α) (hi : i ∉ L) (f : α → ℤ) :
    (L.map fun x => if i = x then f x else 0).sum = 0 := by
  induction L with
  | nil => rfl
  | cons a L ih =>
    simp only [List.mem_cons, not_or] at hi
    simp only [List.map_cons, List.sum_cons, if_neg hi.1, ih hi.2, add_zero]

theorem list_sum_map_single {α : Type} [DecidableEq α] (L : List α)
    (i : α) (hi : i ∈ L) (hnd : L.Nodup) (f : α → ℤ) :
    (L.map fun x => if i = x then f x else 0).sum = f i := by
  induction L with
  | nil => exact absurd hi (List.not_mem_nil i)
  | cons a L ih =>
    simp only [List.nodup_cons] at hnd
    rcases List.mem_cons.mp hi with rfl | hmem
    · simp [list_sum_map_single_zero L i hnd.1 f]
    · have hia : i ≠ a := fun he => hnd.1 (he ▸ hmem)
      simp only [List.map_cons, List.sum_cons, if_neg hia, ih hmem hnd.2, zero_add]

theorem densify_not_mem (g : SState) (i : Fin 512)
    (hni : i ∉ g.map Prod.fst) : densify g i = 0 := by
  induction g with
  | nil => rfl
  | cons p g ih =>
    simp only [List.map_cons, List.mem_cons, not_or] at hni
    rw [densify_cons, if_neg (fun he => hni.1 he.symm), ih hni.2, add_zero]

theorem addAmp_densify (i : Fin 512) (a : ℤ) (g : SState) (x : Fin 512) :
    densify (addAmp i a g) x = (if i = x then a else 0) + densify g x := by
  induction g with
  | nil =>
    show densify [(i, a)] x = (if i = x then a else 0) + densify [] x
    rw [densify_cons]
  | cons p g ih =>
    obtain ⟨j, b⟩ := p
    by_cases hij : i = j
    · rw [show addAmp i a ((j, b) :: g) = (j, b + a) :: g from by simp [addAmp, hij]]
      rw [densify_cons, densify_cons]
      by_cases hix : i = x
      · have hjx : j = x := hij.symm.trans hix
        simp [hix, hjx]
        ring
      · have hjx : ¬(j = x) := fun he => hix (hij.trans he)
        simp [hix, hjx]
    · rw [show addAmp i a ((j, b) :: g) = (j, b) :: addAmp i a g
          from by simp [addAmp, hij]]
      rw [densify_cons, ih, densify_cons]
      ring

theorem addAmp_keys_subset (i : Fin 512) (a : ℤ) (g : SState) (j : Fin 512)
    (hj : j ∈ (addAmp i a g).map Prod.fst) : j = i ∨ j ∈ g.map Prod.fst := by
  induction g with
  | nil =>
    rw [show addAmp i a [] = [(i, a)] from rfl, List.map_cons, List.map_nil] at hj
    exact Or.inl (List.mem_singleton.mp hj)
  | cons p g ih =>
    obtain ⟨k, b⟩ := p
    by_cases hik : i = k
    · rw [show addAmp i a ((k, b) :: g) = (k, b + a) :: g
          from by simp [addAmp, hik], List.map_cons] at hj
      rcases List.mem_cons.mp hj with h | h
      · exact Or.inl (h.trans hik.symm)
      · exact Or.inr (by rw [List.map_cons]; exact List.mem_cons_of_mem _ h)
    · rw [show addAmp i a ((k, b) :: g) = (k, b) :: addAmp i a g
          from by simp [addAmp, hik], List.map_cons] at hj
      rcases List.mem_cons.mp hj with h | h
      · exact Or.inr (by rw [List.map_cons, h]; exact List.mem_cons_self _ _)
      · rcases ih h with h' | h'
        · exact Or.inl h'
        · exact Or.inr (by rw [List.map_cons]; exact List.mem_cons_of_mem _ h')

theorem addAmp_keys_nodup (i : Fin 512) (a : ℤ) (g : SState)
    (hnd : (g.map Prod.fst).Nodup) : ((addAmp i a g).map Prod.fst).Nodup := by
  induction g with
  | nil => simp [addAmp]
  | cons p g ih =>
    obtain ⟨k, b⟩ := p
    simp only [List.map_cons, List.nodup_cons] at hnd
    obtain ⟨hk, hnd⟩ := hnd
    by_cases hik : i = k
    · rw [show addAmp i a ((k, b) :: g) = (k, b + a) :: g
          from by simp [addAmp, hik], List.map_cons]
      exact List.nodup_cons.mpr ⟨hk, hnd⟩
    · rw [show addAmp i a ((k, b) :: g) = (k, b) :: addAmp i a g
          from by simp [addAmp, hik], List.map_cons]
      refine List.nodup_cons.mpr ⟨?_, ih hnd⟩
      intro hmem
      rcases addAmp_keys_subset i a g k hmem with h | h
      · exact hik h.symm
      · exact hk h

theorem gather_densify (l : SState) (x : Fin 512) :
    densify (gather l) x = densify l x := by
  induction l with
  | nil => rfl
  | cons p l ih =>
    show densify (addAmp p.1 p.2 (gather l)) x = densify (p :: l) x
    rw [addAmp_densify, ih, densify_cons]

theorem gather_keys_nodup (l : SState) : ((gather l).map Prod.fst).Nodup := by
  induction l with
  | nil => simp [gather]
  | cons p l ih => exact addAmp_keys_nodup _ _ _ ih

theorem weightAll_eq (g : SState) (hnd : (g.map Prod.fst).Nodup) :
    normSq (densify g) = weightAll g := by
  induction g with
  | nil => simp [normSq, densify, weightAll]
  | cons p g ih =>
    obtain ⟨i, a⟩ := p
    simp only [List.map_cons, List.nodup_cons] at hnd
    obtain ⟨hni, hnd⟩ := hnd
    have hz : densify g i = 0 := densify_not_mem g i hni
    have hpt : ∀ x : Fin 512, densify ((i, a) :: g) x ^ 2 =
        (if i = x then a ^ 2 else 0) +
          ((if i = x then 2 * (a * densify g x) else 0) + densify g x ^ 2) := by
      intro x
      rw [densify_cons]
      by_cases hix : i = x
      · simp [hix]
        ring
      · simp [hix]
    unfold normSq
    simp only [hpt]
    rw [list_sum_map_add, list_sum_map_add]
    rw [list_sum_map_single _ i (List.mem_finRange i) (List.nodup_finRange 512)]
    rw [list_sum_map_single _ i (List.mem_finRange i) (List.nodup_finRange 512)]
    rw [hz]
    have hrest : ((List.finRange 512).map fun x => densify g x ^ 2).sum = weightAll g :=
      ih hnd
    rw [hrest]
    simp [weightAll]

theorem weightOne_eq (q : Fin 9) (g : SState) (hnd : (g.map Prod.fst).Nodup) :
    oneCount q (densify g) = weightOne q g := by
  induction g with
  | nil => simp [oneCount, densify, weightOne]
  | cons p g ih =>
    obtain ⟨i, a⟩ := p
    simp only [List.map_cons, List.nodup_cons] at hnd
    obtain ⟨hni, hnd⟩ := hnd
    have hz : densify g i = 0 := densify_not_mem g i hni
    have hpt : ∀ x : Fin 512,
        (if bitOf q x then densify ((i, a) :: g) x ^ 2 else 0) =
          (if i = x then (if bitOf q x then a ^ 2 else 0) else 0) +
            ((if i = x then (if bitOf q x then 2 * (a * densify g x) else 0) else 0) +
              (if bitOf q x then densify g x ^ 2 else 0)) := by
      intro x
      rw [densify_cons]
      by_cases hix : i = x
      · cases hb : bitOf q x
        · simp [hix, hb]
        · simp [hix, hb]
          ring
      · cases hb : bitOf q x
        · simp [hix, hb]
        · simp [hix, hb]
    unfold oneCount
    simp only [hpt]
    rw [list_sum_map_add, list_sum_map_add]
    rw [list_sum_map_single _ i (List.mem_finRange i) (List.nodup_finRange 512)]
    rw [list_sum_map_single _ i (List.mem_finRange i) (List.nodup_finRange 512)]
    rw [hz]
    have hrest : ((List.finRange 512).map fun x =>
        if bitOf q x then densify g x ^ 2 else 0).sum = weightOne q g := ih hnd
    rw [hrest]
    cases hb : bitOf q i <;> simp [weightOne, hb]

theorem simulate_eq_one (qc : Circuit) (n : ℤ) (hn : n ≠ 0)
    (hlast : qc.ops.getLast? = some (Op.measure 0 0))
    (hrc : runCheck qc.ops.dropLast = some (n, n)) :
    simulate qc = some 1 := by
  cases hr : runOpsS qc.ops.dropLast sInit with
  | none =>
    rw [runCheck, hr] at hrc
    exact Option.noConfusion hrc
  | some l =>
    rw [runCheck, hr] at hrc
    simp only [Option.map_some', Option.some.injEq, Prod.mk.injEq] at hrc
    obtain ⟨h1, h2⟩ := hrc
    have hdg : densify (gather l) = densify l := funext fun x => gather_densify l x
    have h1' : oneCount 0 (densify l) = n := by
      rw [← hdg, weightOne_eq 0 (gather l) (gather_keys_nodup l)]
      exact h1
    have h2' : normSq (densify l) = n := by
      rw [← hdg, weightAll_eq (gather l) (gather_keys_nodup l)]
      exact h2
    have hrun := runOpsS_sound _ _ _ hr
    rw [densify_sInit] at hrun
    unfold simulate
    rw [hlast, hrun]
    simp only [lastMeasure]
    rw [dif_pos (by norm_num : (0 : ℕ) < 9)]
    exact congrArg some (probOne_eq_one _ _ (h1'.trans h2'.symm) (by rw [h2']; exact hn))

/-! ## The claims -/

/-- Claim C1: for every one of the 8 non-logical qubit indices (qubits 1
through 8), the circuit that prepares logical one (X on qubit 0), applies
the encoder, applies a single bit-flip fault to that qubit, then applies
the inverse encoder and measures qubit 0, yields measurement outcome '1'
with probability 1 in a noise-free simulation. -/
theorem claim_single_fault_tolerance :
    ∀ q : ℕ, 1 ≤ q → q ≤ 8 → simulate (fault_injection_circuit q) = some 1 := by
  intro q h1 h8
  interval_cases q <;>
    exact simulate_eq_one _ 64 (by norm_num) (by decide) (by decide)

theorem claim_single_fault_tolerance_witness :
    1 ≤ 4 ∧ 4 ≤ 8 ∧ simulate (fault_injection_circuit 4) = some 1 :=
  ⟨by norm_num, by norm_num,
   claim_single_fault_tolerance 4 (by norm_num) (by norm_num)⟩

/-- Claim C2: composing the shor_encode circuit with its inverse acts as
the identity on any 9-qubit state, so measurement statistics match those
of the prepared state exactly.  In this embedding each of the 6 Hadamards
carries an extra factor sqrt 2, so the computed map is (sqrt 2)^6 = 8
times the identity — the physical map is the identity itself — and the
(scale-invariant) measurement probability of every qubit is unchanged. -/
theorem claim_encode_decode_roundtrip :
    (∀ ψ : State, runOps (shor_encode.ops ++ (inverse shor_encode).ops) ψ =
      some (scale 8 ψ)) ∧
    (∀ (q : Fin 9) (ψ : State), probOne q (scale 8 ψ) = probOne q ψ) := by
  constructor
  · intro ψ
    have hchain : runOps (shor_encode.ops ++ (inverse shor_encode).ops) ψ =
        some (applyCX 0 3 (applyCX 0 6 (applyH 0 (applyH 3 (applyH 6
          (applyCX 0 1 (applyCX 0 2 (applyCX 3 4 (applyCX 3 5 (applyCX 6 7
          (applyCX 6 8 (applyCX 6 8 (applyCX 6 7 (applyCX 3 5 (applyCX 3 4
          (applyCX 0 2 (applyCX 0 1 (applyH 6 (applyH 3 (applyH 0
          (applyCX 0 6 (applyCX 0 3 ψ)))))))))))))))))))))) := rfl
    rw [hchain]
    refine congrArg some ?_
    simp only [cx68_cancel, cx67_cancel, cx35_cancel, cx34_cancel, cx02_cancel,
      cx01_cancel, applyH_applyH, applyH_scale, applyCX_scale, scale_scale,
      cx06_cancel, cx03_cancel]
    norm_num
  · intro q ψ
    exact probOne_scale 8 (by norm_num) q ψ

/-- Claim C3: apply_error_correction returns the same circuit for every
syndrome argument, and its gate sequence X, Z, X, Z on qubit 0 composes
to minus the identity — the global phase -1 — so it is a no-op
correction: the measurement statistics of every qubit are unchanged
regardless of the syndrome supplied. -/
theorem claim_correction_ignores_syndrome :
    (∀ syn : String,
      apply_error_correction syn = apply_error_correction "000000") ∧
    (∀ ψ : State, runOps (apply_error_correction "000000").ops ψ =
      some (scale (-1) ψ)) ∧
    (∀ (q : Fin 9) (ψ : State), probOne q (scale (-1) ψ) = probOne q ψ) := by
  refine ⟨fun _ => rfl, fun ψ => ?_,
    fun q ψ => probOne_scale (-1) (by norm_num) q ψ⟩
  have hchain : runOps (apply_error_correction "000000").ops ψ =
      some (applyZ 0 (applyX 0 (applyZ 0 (applyX 0 ψ)))) := rfl
  rw [hchain]
  refine congrArg some ?_
  funext x
  simp only [applyZ, applyX, scale]
  rw [flipBit_flipBit]
  rw [← mul_assoc, zSign_mul_zSign_flipBit]

/-- Claim C4: shor_qec_circuit is composed in exactly this order: H on
qubit 0, the logical-operations fragment, the encoder, a barrier, the
correction fragment, the inverse encoder, and finally the measurement of
qubit 0 into classical bit 0 as the last operation. -/
theorem claim_qec_composition_order :
    shor_qec_circuit.ops =
      [Op.h 0] ++ apply_quantum_operations.ops ++ shor_encode.ops ++
        [Op.barrier] ++ (apply_error_correction "000000").ops ++
        (inverse shor_encode).ops ++ [Op.measure 0 0] ∧
    shor_qec_circuit.ops.getLast? = some (Op.measure 0 0) :=
  ⟨rfl, rfl⟩

/-- Claim C5: shor_qec_circuit has exactly 9 qubits, 1 classical bit and
exactly 2 barrier operations, one of which is contributed by the
correction fragment. -/
theorem claim_qec_circuit_shape :
    shor_qec_circuit.numQubits = 9 ∧ shor_qec_circuit.numClbits = 1 ∧
    shor_qec_circuit.ops.count Op.barrier = 2 ∧
    (apply_error_correction "000000").ops.count Op.barrier = 1 := by
  refine ⟨rfl, rfl, ?_, ?_⟩ <;> decide

/-- Claim C6: run_comparison computes the deviation as
abs(0.5 - p0) * 200 with p0 the count of '0' over the 1000 shots; on
counts 500/500 the deviation is 0 and on counts 400/600 it is 20. -/
theorem claim_deviation_computation :
    (∀ counts, prob_0 counts = (getCount counts "0" : ℚ) / 1000) ∧
    (∀ counts, deviation counts = |(1 / 2 : ℚ) - prob_0 counts| * 200) ∧
    deviation [("0", 500), ("1", 500)] = 0 ∧
    deviation [("0", 400), ("1", 600)] = 20 := by
  refine ⟨fun _ => rfl, fun counts => ?_, ?_, ?_⟩
  · norm_num [deviation]
  · norm_num [deviation, prob_0, getCount, List.lookup]
  · have habs : |(1 : ℚ) / 10| = 1 / 10 := abs_of_nonneg (by norm_num)
    norm_num [deviation, prob_0, getCount, List.lookup, habs]

/-- Claim C7 counterexample: the source's build_noise_model takes no
parameters, so it cannot realize the claimed parameterized provider:
already at p1 = 1/2 (with p2 at its claimed default) the parameterized
model the claim describes differs from the source's one fixed model. -/
theorem claim_noise_model_params_counterexample :
    build_noise_model_spec (1 / 2) (3 / 100) ≠ build_noise_model := by
  intro hcontra
  have hh := congrArg (fun nm : NoiseModel => nm.head?.map fun p => p.2.p) hcontra
  simp [build_noise_model_spec, build_noise_model, add_all_qubit_quantum_error,
    oneQubitGates, twoQubitGates, depolarizing_error] at hh
  norm_num at hh

/-- Claim C7 (amended): build_noise_model takes no parameters and uses
the fixed values p1 = 0.01 and p2 = 0.03; the returned model attaches
depolarizing probability 0.01 uniformly to every single-qubit gate kind
in the supported set and 0.03 uniformly to every two-qubit gate kind. -/
theorem claim_noise_model_fixed_values :
    build_noise_model = build_noise_model_spec 0.01 0.03 ∧
    build_noise_model =
      [("h", ⟨0.01, 1⟩), ("x", ⟨0.01, 1⟩), ("y", ⟨0.01, 1⟩), ("z", ⟨0.01, 1⟩),
       ("s", ⟨0.01, 1⟩), ("sdg", ⟨0.01, 1⟩), ("t", ⟨0.01, 1⟩),
       ("tdg", ⟨0.01, 1⟩), ("rx", ⟨0.01, 1⟩), ("ry", ⟨0.01, 1⟩),
       ("rz", ⟨0.01, 1⟩), ("cx", ⟨0.03, 2⟩), ("cz", ⟨0.03, 2⟩),
       ("swap", ⟨0.03, 2⟩)] :=
  ⟨rfl, rfl⟩

/-- Claim C9: demonstrate_error_correction runs on a backend constructed
with no noise model (unlike run_comparison's backend, which carries the
depolarizing model), and its noise-free run of the fault-injection
circuit yields outcome '1' with probability 1 — so every one of its
shots records the bitstring '1'. -/
theorem claim_demonstration_noise_free :
    demonstration_backend.noise_model = none ∧
    comparison_backend.noise_model = some build_noise_model ∧
    simulate demonstrate_circuit = some 1 :=
  ⟨rfl, rfl, simulate_eq_one _ 64 (by norm_num) (by decide) (by decide)⟩

/-- Claim C10: run_comparison reads absent outcome bitstrings as count 0
(dictionary lookup with default 0), so the probabilities are always
defined and p0 + p1 equals (count of '0' plus count of '1') / 1000. -/
theorem claim_absent_counts_default_zero :
    (∀ counts, List.lookup "0" counts = none → prob_0 counts = 0) ∧
    (∀ counts, List.lookup "1" counts = none → prob_1 counts = 0) ∧
    (∀ counts, prob_0 counts + prob_1 counts =
      ((getCount counts "0" : ℚ) + (getCount counts "1" : ℚ)) / 1000) := by
  refine ⟨fun counts hc => ?_, fun counts hc => ?_, fun counts => ?_⟩
  · simp [prob_0, getCount, hc]
  · simp [prob_1, getCount, hc]
  · unfold prob_0 prob_1
    rw [div_add_div_same]

theorem claim_absent_counts_default_zero_witness :
    prob_0 [("1", 1000)] = 0 ∧ prob_1 [("0", 1000)] = 0 ∧
    prob_0 [("1", 1000)] + prob_1 [("1", 1000)] =
      ((getCount [("1", 1000)] "0" : ℚ) + (getCount [("1", 1000)] "1" : ℚ)) / 1000 :=
  ⟨claim_absent_counts_default_zero.1 _ (by decide),
   claim_absent_counts_default_zero.2.1 _ (by decide),
   claim_absent_counts_default_zero.2.2 _⟩

end ShorQEC
